import Mathlib

/-!
Shallow embedding of `new_release.py` (git-releaser): a command-line helper
that bumps a semantic version recorded in `setup.py`, rewrites the file and
creates a git commit and tag.  Strings are modelled as `List Char`; file
contents as lists of lines (each line keeps its trailing newline, as Python's
file iteration does); raised exceptions as `Except` errors; git side effects
as an event trace.
-/

/-- Converts a string literal to the `List Char` representation used throughout. -/
def toL (s : String) : List Char := s.toList

/-- Characters stripped by Python's `str.strip()` with no arguments
(ASCII whitespace; `str.strip` also strips some Unicode space characters,
which cannot occur in the ASCII manifest lines handled here). -/
def isPyWhitespace (c : Char) : Bool :=
  c = ' ' || c = '\t' || c = '\n' || c = '\x0b' || c = '\x0c' || c = '\r'

/-- Models Python `str.strip()`: remove leading and trailing whitespace. -/
def pyStrip (s : List Char) : List Char :=
  ((s.dropWhile isPyWhitespace).reverse.dropWhile isPyWhitespace).reverse

/-- Models Python's substring test `pat in s`. -/
def containsSub (pat : List Char) : List Char → Bool
  | [] => pat.isEmpty
  | c :: rest => pat.isPrefixOf (c :: rest) || containsSub pat rest

/-- Models matching the regex `[0-9]+\.[0-9]+\.[0-9]+` anchored at the start of
`s`, returning the matched substring (`group(0)`).  Each `[0-9]+` is the
maximal digit run: the greedy match never needs to backtrack, because a
shorter digit run is followed by a digit, which can never satisfy the
required `\.`. -/
def matchVersionAt (s : List Char) : Option (List Char) :=
  let d1 := s.takeWhile Char.isDigit
  if d1.isEmpty then none else
  match s.dropWhile Char.isDigit with
  | '.' :: r2 =>
    let d2 := r2.takeWhile Char.isDigit
    if d2.isEmpty then none else
    match r2.dropWhile Char.isDigit with
    | '.' :: r4 =>
      let d3 := r4.takeWhile Char.isDigit
      if d3.isEmpty then none else
      some (d1 ++ '.' :: (d2 ++ '.' :: d3))
    | _ => none
  | _ => none

/-- Models `re.match` of `'^{}$'.format('[0-9]+\.[0-9]+\.[0-9]+')` succeeding:
anchored at the start; `$` matches at the end of the string or just before a
single trailing newline. -/
def pyFullMatch (s : List Char) : Bool :=
  let d1 := s.takeWhile Char.isDigit
  match s.dropWhile Char.isDigit with
  | '.' :: r2 =>
    let d2 := r2.takeWhile Char.isDigit
    match r2.dropWhile Char.isDigit with
    | '.' :: r4 =>
      let d3 := r4.takeWhile Char.isDigit
      let r6 := r4.dropWhile Char.isDigit
      !d1.isEmpty && !d2.isEmpty && !d3.isEmpty && (r6.isEmpty || r6 == ['\n'])
    | _ => false
  | _ => false

/-- States that `s` is exactly three nonempty digit runs separated by dots
(the strict version-string format `x.y.z`, with no trailing newline). -/
def isStrictVersion (s : List Char) : Bool :=
  let d1 := s.takeWhile Char.isDigit
  match s.dropWhile Char.isDigit with
  | '.' :: r2 =>
    let d2 := r2.takeWhile Char.isDigit
    match r2.dropWhile Char.isDigit with
    | '.' :: r4 =>
      let d3 := r4.takeWhile Char.isDigit
      !d1.isEmpty && !d2.isEmpty && !d3.isEmpty && (r4.dropWhile Char.isDigit).isEmpty
    | _ => false
  | _ => false

/-- Numeric value of a digit string, most significant digit first. -/
def digitsVal (s : List Char) : Nat :=
  s.foldl (fun a c => 10 * a + (c.toNat - 48)) 0

/-- Models Python `int()` on the strings that occur in this program: a
nonempty run of ASCII digits.  (`int()` additionally tolerates surrounding
whitespace, a sign and underscores, none of which can occur in a component
split from a validated version string.) -/
def intOfDigits (s : List Char) : Option Nat :=
  if !s.isEmpty && s.all Char.isDigit then some (digitsVal s) else none

/-- Fuel-indexed helper for `natToDigits`; any `fuel > n` yields the digits
of `n`.  Structural recursion on the fuel keeps the definition
kernel-reducible. -/
def natToDigitsAux : Nat → Nat → List Char
  | 0, _ => []
  | fuel + 1, n =>
    if n < 10 then [Nat.digitChar n]
    else natToDigitsAux fuel (n / 10) ++ [Nat.digitChar (n % 10)]

/-- Models Python `str()` of a non-negative integer: decimal digits, no
leading zeros, `"0"` for zero. -/
def natToDigits (n : Nat) : List Char := natToDigitsAux (n + 1) n

/-- Models Python `str.split('.')`: split on every dot, keeping empty pieces. -/
def splitDot : List Char → List (List Char)
  | [] => [[]]
  | c :: rest =>
    if c = '.' then [] :: splitDot rest
    else
      match splitDot rest with
      | [] => [[c]]
      | p :: ps => (c :: p) :: ps

/-- Inverse of `splitDot`: re-join pieces with dots. -/
def joinDot : List (List Char) → List Char
  | [] => []
  | [x] => x
  | x :: y :: xs => x ++ '.' :: joinDot (y :: xs)

/-- States that `d` is a nonempty run of ASCII digits — the shape of one
component of a version string. -/
def VersionParts (d : List Char) : Prop :=
  d ≠ [] ∧ ∀ c ∈ d, c.isDigit = true

/-- The bump table of §4.1 on version triples: the bumped component is
incremented, lower-order components reset to zero, higher-order components
unchanged. -/
def bumpTriple (release : List Char) (x y z : Nat) : Nat × Nat × Nat :=
  if release = toL "major" then (x + 1, 0, 0)
  else if release = toL "minor" then (x, y + 1, 0)
  else (x, y, z + 1)

/-- Interprets a version string as its triple of component values
(`none` unless it is three nonempty digit runs separated by dots). -/
def parseVersion (s : List Char) : Option (Nat × Nat × Nat) :=
  match splitDot s with
  | [a, b, c] =>
    match intOfDigits a, intOfDigits b, intOfDigits c with
    | some x, some y, some z => some (x, y, z)
    | _, _, _ => none
  | _ => none

/-- Exceptions that the modelled code can raise.  Message payloads are
omitted; only the exception type matters to control flow. -/
inductive PyErr where
  /-- Python `TypeError`, e.g. from `re.Pattern.match(None)`. -/
  | typeError
  /-- Python `ValueError`, e.g. from unpacking a split of the wrong length
  or `int()` on a non-numeric string. -/
  | valueError
  /-- The module's own `NewReleaseError`. -/
  | newReleaseError
deriving DecidableEq

deriving instance DecidableEq for Except

/-- Git operations performed, in order. -/
inductive GitEvent where
  /-- `repo.git.add(file)` -/
  | add (file : List Char)
  /-- `repo.git.commit(m=message)` -/
  | commit (message : List Char)
  /-- `repo.create_tag(name)` -/
  | tag (name : List Char)
deriving DecidableEq

/-- State touched by the program: the lines of `setup.py` on disk and the
trace of git operations performed so far. -/
structure PyState where
  setupFile : List (List Char)
  events : List GitEvent
deriving DecidableEq

namespace NewRelease

/-- `__BUMP_VERSIONS = ['major', 'minor', 'patch']` -/
def bump_versions : List (List Char) := [toL "major", toL "minor", toL "patch"]

/-- `__SETUP_FILE = 'setup.py'` -/
def setup_file : List Char := toL "setup.py"

/-- Models `get_version_from_line`: `re.search` of
`[0-9]+\.[0-9]+\.[0-9]+` over the line (leftmost match, tried at each start
position from the left), with the `AttributeError` branch (no match)
returning `None`. -/
def get_version_from_line : List Char → Option (List Char)
  | [] => none
  | c :: rest =>
    match matchVersionAt (c :: rest) with
    | some m => some m
    | none => get_version_from_line rest

/-- Models `validate_release_number`.  When `version` is `None`, Python's
`regex.match(None)` raises `TypeError` before the function's own
`NewReleaseError` can be raised; when `version` is a string, a failed full
match raises `NewReleaseError`. -/
def validate_release_number (version : Option (List Char)) : Except PyErr Unit :=
  match version with
  | none => Except.error PyErr.typeError
  | some v =>
    if pyFullMatch v then Except.ok () else Except.error PyErr.newReleaseError

/-- Models `extract_current_version` over the manifest given as its list of
lines (each line keeps its trailing newline).  The loop takes the first line
containing the substring `version=` and breaks unconditionally after
extracting from it; then the extracted value is validated and returned. -/
def extract_current_version (manifest : List (List Char)) :
    Except PyErr (Option (List Char)) :=
  let current :=
    match manifest.find? (fun line => containsSub (toL "version=") line) with
    | none => none
    | some line => get_version_from_line line
  match validate_release_number current with
  | Except.error e => Except.error e
  | Except.ok _ => Except.ok current

/-- Models `validate_release`: raises `NewReleaseError` unless the requested
bump is one of `__BUMP_VERSIONS`. -/
def validate_release (release : List Char) : Except PyErr Unit :=
  if release ∈ bump_versions then Except.ok ()
  else Except.error PyErr.newReleaseError

/-- Models `next_version`.  `current.split('.')` must have exactly three
pieces (otherwise the unpacking raises `ValueError`, modelled as `none`);
only the bumped component is converted with `int()` (`none` models the
`ValueError` when it is not numeric); the other components are kept as the
original strings and re-joined with `'{}.{}.{}'.format`.  The source uses
three consecutive `if` statements; their conditions compare `release`
against distinct literals, so at most one holds and the `if`/`else if`
chain below is equivalent. -/
def next_version (current release : List Char) : Option (List Char) :=
  match splitDot current with
  | [major, minor, patch] =>
    if release = toL "major" then
      match intOfDigits major with
      | none => none
      | some m => some (natToDigits (m + 1) ++ '.' :: (toL "0" ++ '.' :: toL "0"))
    else if release = toL "minor" then
      match intOfDigits minor with
      | none => none
      | some m => some (major ++ '.' :: (natToDigits (m + 1) ++ '.' :: toL "0"))
    else if release = toL "patch" then
      match intOfDigits patch with
      | none => none
      | some p => some (major ++ '.' :: (minor ++ '.' :: natToDigits (p + 1)))
    else some (major ++ '.' :: (minor ++ '.' :: patch))
  | _ => none

/-- Models `update_git`: one commit with message `New release: v<new>` over
the staged changes, then one tag named `v<new>`. -/
def update_git (new_version : List Char) (st : PyState) : PyState :=
  { st with
    events := st.events ++
      [GitEvent.commit (toL "New release: v" ++ new_version),
       GitEvent.tag ('v' :: new_version)] }

/-- The exact line (after `strip()`) that `update_setup_file` rewrites:
`version='<current>',`. -/
def search_string (current : List Char) : List Char :=
  toL "version='" ++ current ++ toL "',"

/-- Fuel-indexed scan of Python `str.replace(old, new)` for a nonempty
pattern `d :: cs`: scan left to right, replace each non-overlapping
occurrence, continue after the replacement.  Each step consumes at least one
character, so any `fuel ≥ s.length` gives the untruncated result; structural
recursion on the fuel keeps the definition kernel-reducible. -/
def pyReplaceAux (d : Char) (cs new : List Char) : Nat → List Char → List Char
  | 0, s => s
  | _ + 1, [] => []
  | fuel + 1, c :: rest =>
    if (d :: cs).isPrefixOf (c :: rest) then
      new ++ pyReplaceAux d cs new fuel (rest.drop cs.length)
    else
      c :: pyReplaceAux d cs new fuel rest

/-- Models `line.replace(old, new)`.  In this program `old` is the validated
current version, which is nonempty; Python's behaviour on an empty pattern
(interleaving `new` everywhere) is unreachable here and modelled as the
identity. -/
def pyReplace (old new s : List Char) : List Char :=
  match old with
  | [] => s
  | d :: cs => pyReplaceAux d cs new s.length s

/-- Processing of a single manifest line by `update_setup_file`'s loop. -/
def rewrite_line (current next_v line : List Char) : List Char :=
  if pyStrip line = search_string current then pyReplace current next_v line
  else line

/-- Models `update_setup_file`: rewrite every line (the loop appends each
processed line in order, i.e. a map), write the result back, then stage the
file with `git add`. -/
def update_setup_file (current next_v : List Char) (st : PyState) : PyState :=
  { setupFile := st.setupFile.map (rewrite_line current next_v),
    events := st.events ++ [GitEvent.add setup_file] }

/-- Models `update_version`: validate the bump kind, compute the next
version, rewrite and stage the manifest, then commit and tag.  An error
carries the state at the moment the exception is raised.  The final
`print` writes only to stdout and is not modelled. -/
def update_version (current release : List Char) (st : PyState) :
    Except (PyErr × PyState) PyState :=
  match validate_release release with
  | Except.error e => Except.error (e, st)
  | Except.ok _ =>
    match next_version current release with
    | none => Except.error (PyErr.valueError, st)
    | some nv =>
      let st1 := update_setup_file current nv st
      Except.ok (update_git nv st1)

end NewRelease

/-! Basic facts about `takeWhile`, `dropWhile`, characters and digit strings. -/

theorem takeWhile_append_of {p : Char → Bool} :
    ∀ (d : List Char) {x : Char} {r : List Char},
      (∀ c ∈ d, p c = true) → p x = false → (d ++ x :: r).takeWhile p = d
  | [], _, _, _, hx => by simp [List.takeWhile_cons, hx]
  | a :: d, x, r, hd, hx => by
    have ha : p a = true := hd a (by simp)
    have ih := takeWhile_append_of d (x := x) (r := r) (fun c hc => hd c (by simp [hc])) hx
    simp [List.takeWhile_cons, ha, ih]

theorem dropWhile_append_of {p : Char → Bool} :
    ∀ (d : List Char) {x : Char} {r : List Char},
      (∀ c ∈ d, p c = true) → p x = false → (d ++ x :: r).dropWhile p = x :: r
  | [], _, _, _, hx => by simp [List.dropWhile_cons, hx]
  | a :: d, x, r, hd, hx => by
    have ha : p a = true := hd a (by simp)
    have ih := dropWhile_append_of d (x := x) (r := r) (fun c hc => hd c (by simp [hc])) hx
    simp [List.dropWhile_cons, ha, ih]

theorem dropWhile_eq_nil_of_all {p : Char → Bool} :
    ∀ {l : List Char}, (∀ c ∈ l, p c = true) → l.dropWhile p = []
  | [], _ => rfl
  | a :: l, h => by
    have ha : p a = true := h a (by simp)
    have ih := dropWhile_eq_nil_of_all (p := p) (l := l) (fun c hc => h c (by simp [hc]))
    simp [List.dropWhile_cons, ha, ih]

theorem digitChar_spec : ∀ m : Nat, m < 10 →
    (Nat.digitChar m).isDigit = true ∧ (Nat.digitChar m).toNat = 48 + m := by decide

theorem ws_not_digit {c : Char} (h : isPyWhitespace c = true) : c.isDigit = false := by
  simp only [isPyWhitespace, Bool.or_eq_true, decide_eq_true_eq] at h
  rcases h with ((((h | h) | h) | h) | h) | h <;> subst h <;> decide

theorem digit_ne_dot {c : Char} (h : c.isDigit = true) : ¬ (c = '.') := by
  intro hc; rw [hc] at h; exact absurd h (by decide)

theorem not_digit_ne {c d : Char} (hc : c.isDigit = false) (hd : d.isDigit = true) :
    ¬ (c = d) := by
  intro h; rw [h, hd] at hc; cases hc

theorem digitsVal_append_singleton (a : List Char) (c : Char) :
    digitsVal (a ++ [c]) = 10 * digitsVal a + (c.toNat - 48) := by
  simp [digitsVal, List.foldl_append]

theorem natToDigitsAux_spec : ∀ fuel n : Nat, n < fuel →
    natToDigitsAux fuel n ≠ [] ∧ (∀ c ∈ natToDigitsAux fuel n, c.isDigit = true) ∧
      digitsVal (natToDigitsAux fuel n) = n := by
  intro fuel
  induction fuel with
  | zero => intro n h; omega
  | succ fuel ih =>
    intro n h
    by_cases h10 : n < 10
    · refine ⟨by simp [natToDigitsAux, h10], ?_, ?_⟩
      · intro c hc
        simp [natToDigitsAux, h10] at hc
        rw [hc]
        exact (digitChar_spec n h10).1
      · have ht := (digitChar_spec n h10).2
        simp [natToDigitsAux, h10, digitsVal, ht]
    · have hn0 : 0 < n := by omega
      have hdiv : n / 10 < n := Nat.div_lt_self hn0 (by omega)
      obtain ⟨hne, hall, hval⟩ := ih (n / 10) (by omega)
      have heq : natToDigitsAux (fuel + 1) n =
          natToDigitsAux fuel (n / 10) ++ [Nat.digitChar (n % 10)] := by
        simp [natToDigitsAux, h10]
      refine ⟨?_, ?_, ?_⟩
      · rw [heq]; simp [hne]
      · intro c hc
        rw [heq] at hc
        rcases List.mem_append.mp hc with hc | hc
        · exact hall c hc
        · simp at hc
          rw [hc]
          exact (digitChar_spec (n % 10) (by omega)).1
      · rw [heq, digitsVal_append_singleton, hval,
          (digitChar_spec (n % 10) (by omega)).2]
        omega

theorem natToDigits_parts (n : Nat) :
    VersionParts (natToDigits n) ∧ digitsVal (natToDigits n) = n := by
  obtain ⟨h1, h2, h3⟩ := natToDigitsAux_spec (n + 1) n (by omega)
  exact ⟨⟨h1, h2⟩, h3⟩

theorem intOfDigits_of_parts {d : List Char} (h : VersionParts d) :
    intOfDigits d = some (digitsVal d) := by
  obtain ⟨h1, h2⟩ := h
  simp [intOfDigits, List.isEmpty_eq_false.mpr h1, List.all_eq_true.mpr h2]

/-! Facts about `splitDot` and `joinDot`. -/

theorem splitDot_ne_nil : ∀ l : List Char, splitDot l ≠ []
  | [] => by simp [splitDot]
  | c :: rest => by
    by_cases h : c = '.'
    · simp [splitDot, h]
    · simp only [splitDot, if_neg h]
      cases splitDot rest <;> simp

theorem splitDot_append_dot : ∀ (d : List Char) {r : List Char},
    (∀ c ∈ d, ¬ (c = '.')) → splitDot (d ++ '.' :: r) = d :: splitDot r
  | [], _, _ => by simp [splitDot]
  | a :: d, r, hd => by
    have ha : ¬ (a = '.') := hd a (by simp)
    have ih := splitDot_append_dot d (r := r) (fun c hc => hd c (by simp [hc]))
    simp only [List.cons_append, splitDot, if_neg ha, List.append_eq, ih]

theorem splitDot_no_dot : ∀ d : List Char, (∀ c ∈ d, ¬ (c = '.')) → splitDot d = [d]
  | [], _ => rfl
  | a :: d, hd => by
    have ha : ¬ (a = '.') := hd a (by simp)
    have ih := splitDot_no_dot d (fun c hc => hd c (by simp [hc]))
    simp only [splitDot, if_neg ha, ih]

theorem joinDot_splitDot : ∀ l : List Char, joinDot (splitDot l) = l
  | [] => by simp [splitDot, joinDot]
  | c :: rest => by
    have ih := joinDot_splitDot rest
    obtain ⟨p, ps, hps⟩ : ∃ p ps, splitDot rest = p :: ps := by
      cases hsp : splitDot rest with
      | nil => exact absurd hsp (splitDot_ne_nil rest)
      | cons p ps => exact ⟨p, ps, rfl⟩
    rw [hps] at ih
    by_cases h : c = '.'
    · subst h
      simp only [splitDot, if_pos rfl, hps]
      simp [joinDot, ih]
    · simp only [splitDot, if_neg h, hps]
      cases ps with
      | nil =>
        simp [joinDot] at ih ⊢
        simp [ih]
      | cons q qs =>
        simp [joinDot] at ih ⊢
        simp [← ih]

/-! Relating the version-shape predicates to explicit decompositions. -/

theorem parts_of_intOfDigits {d : List Char} {n : Nat} (h : intOfDigits d = some n) :
    VersionParts d ∧ digitsVal d = n := by
  unfold intOfDigits at h
  split at h
  · next hcond =>
    simp only [Bool.and_eq_true, Bool.not_eq_true', List.all_eq_true] at hcond
    injection h with h
    exact ⟨⟨List.isEmpty_eq_false.mp hcond.1, hcond.2⟩, h⟩
  · cases h

theorem isStrictVersion_of_parts {d1 d2 d3 : List Char}
    (h1 : VersionParts d1) (h2 : VersionParts d2) (h3 : VersionParts d3) :
    isStrictVersion (d1 ++ '.' :: (d2 ++ '.' :: d3)) = true := by
  obtain ⟨h1n, h1d⟩ := h1
  obtain ⟨h2n, h2d⟩ := h2
  obtain ⟨h3n, h3d⟩ := h3
  have t1 := takeWhile_append_of (p := Char.isDigit) d1
    (x := '.') (r := d2 ++ '.' :: d3) h1d (by decide)
  have w1 := dropWhile_append_of (p := Char.isDigit) d1
    (x := '.') (r := d2 ++ '.' :: d3) h1d (by decide)
  have t2 := takeWhile_append_of (p := Char.isDigit) d2
    (x := '.') (r := d3) h2d (by decide)
  have w2 := dropWhile_append_of (p := Char.isDigit) d2
    (x := '.') (r := d3) h2d (by decide)
  have t3 : d3.takeWhile Char.isDigit = d3 := List.takeWhile_eq_self_iff.mpr h3d
  have w3 : d3.dropWhile Char.isDigit = [] := dropWhile_eq_nil_of_all h3d
  simp only [isStrictVersion, t1, w1, t2, w2, t3, w3]
  simp [List.isEmpty_eq_false.mpr h1n, List.isEmpty_eq_false.mpr h2n,
    List.isEmpty_eq_false.mpr h3n]

theorem pyFullMatch_of_parts {d1 d2 d3 : List Char}
    (h1 : VersionParts d1) (h2 : VersionParts d2) (h3 : VersionParts d3) :
    pyFullMatch (d1 ++ '.' :: (d2 ++ '.' :: d3)) = true := by
  obtain ⟨h1n, h1d⟩ := h1
  obtain ⟨h2n, h2d⟩ := h2
  obtain ⟨h3n, h3d⟩ := h3
  have t1 := takeWhile_append_of (p := Char.isDigit) d1
    (x := '.') (r := d2 ++ '.' :: d3) h1d (by decide)
  have w1 := dropWhile_append_of (p := Char.isDigit) d1
    (x := '.') (r := d2 ++ '.' :: d3) h1d (by decide)
  have t2 := takeWhile_append_of (p := Char.isDigit) d2
    (x := '.') (r := d3) h2d (by decide)
  have w2 := dropWhile_append_of (p := Char.isDigit) d2
    (x := '.') (r := d3) h2d (by decide)
  have t3 : d3.takeWhile Char.isDigit = d3 := List.takeWhile_eq_self_iff.mpr h3d
  have w3 : d3.dropWhile Char.isDigit = [] := dropWhile_eq_nil_of_all h3d
  simp only [pyFullMatch, t1, w1, t2, w2, t3, w3]
  simp [List.isEmpty_eq_false.mpr h1n, List.isEmpty_eq_false.mpr h2n,
    List.isEmpty_eq_false.mpr h3n]

theorem parts_of_isStrictVersion {s : List Char} (h : isStrictVersion s = true) :
    ∃ d1 d2 d3, s = d1 ++ '.' :: (d2 ++ '.' :: d3) ∧
      VersionParts d1 ∧ VersionParts d2 ∧ VersionParts d3 := by
  unfold isStrictVersion at h
  split at h
  case h_2 => simp at h
  case h_1 r2 heq1 =>
    split at h
    case h_2 => simp at h
    case h_1 r4 heq2 =>
      simp only [Bool.and_eq_true, Bool.not_eq_true', List.isEmpty_eq_false,
        List.isEmpty_iff] at h
      obtain ⟨⟨⟨hn1, hn2⟩, hn3⟩, hw3⟩ := h
      refine ⟨s.takeWhile Char.isDigit, r2.takeWhile Char.isDigit,
        r4.takeWhile Char.isDigit, ?_, ⟨hn1, fun c hc => List.mem_takeWhile_imp hc⟩,
        ⟨hn2, fun c hc => List.mem_takeWhile_imp hc⟩,
        ⟨hn3, fun c hc => List.mem_takeWhile_imp hc⟩⟩
      have hs := (List.takeWhile_append_dropWhile Char.isDigit s).symm
      rw [heq1] at hs
      have hr2 := (List.takeWhile_append_dropWhile Char.isDigit r2).symm
      rw [heq2] at hr2
      have hr4 := (List.takeWhile_append_dropWhile Char.isDigit r4).symm
      rw [hw3, List.append_nil] at hr4
      rw [hr4] at hr2
      rw [hr2] at hs
      exact hs

theorem pyFullMatch_of_strict {s : List Char} (h : isStrictVersion s = true) :
    pyFullMatch s = true := by
  obtain ⟨d1, d2, d3, hs, h1, h2, h3⟩ := parts_of_isStrictVersion h
  rw [hs]
  exact pyFullMatch_of_parts h1 h2 h3

theorem splitDot_parts {d1 d2 d3 : List Char}
    (h1 : VersionParts d1) (h2 : VersionParts d2) (h3 : VersionParts d3) :
    splitDot (d1 ++ '.' :: (d2 ++ '.' :: d3)) = [d1, d2, d3] := by
  rw [splitDot_append_dot d1 (fun c hc => digit_ne_dot (h1.2 c hc)),
    splitDot_append_dot d2 (fun c hc => digit_ne_dot (h2.2 c hc)),
    splitDot_no_dot d3 (fun c hc => digit_ne_dot (h3.2 c hc))]

theorem parseVersion_of_parts {d1 d2 d3 : List Char}
    (h1 : VersionParts d1) (h2 : VersionParts d2) (h3 : VersionParts d3) :
    parseVersion (d1 ++ '.' :: (d2 ++ '.' :: d3)) =
      some (digitsVal d1, digitsVal d2, digitsVal d3) := by
  unfold parseVersion
  rw [splitDot_parts h1 h2 h3]
  simp [intOfDigits_of_parts h1, intOfDigits_of_parts h2, intOfDigits_of_parts h3]

theorem parts_of_parseVersion {s : List Char} {x y z : Nat}
    (h : parseVersion s = some (x, y, z)) :
    ∃ d1 d2 d3, s = d1 ++ '.' :: (d2 ++ '.' :: d3) ∧
      VersionParts d1 ∧ VersionParts d2 ∧ VersionParts d3 ∧
      digitsVal d1 = x ∧ digitsVal d2 = y ∧ digitsVal d3 = z := by
  unfold parseVersion at h
  split at h
  case h_2 => cases h
  case h_1 a b c heq =>
    split at h
    case h_2 => cases h
    case h_1 x' y' z' ha hb hc =>
      injection h with h
      obtain ⟨hx, hy, hz⟩ : x' = x ∧ y' = y ∧ z' = z := by
        constructor
        · exact congrArg Prod.fst h
        constructor
        · exact congrArg (fun t => t.snd.fst) h
        · exact congrArg (fun t => t.snd.snd) h
      obtain ⟨hpa, hva⟩ := parts_of_intOfDigits ha
      obtain ⟨hpb, hvb⟩ := parts_of_intOfDigits hb
      obtain ⟨hpc, hvc⟩ := parts_of_intOfDigits hc
      refine ⟨a, b, c, ?_, hpa, hpb, hpc, by omega, by omega, by omega⟩
      have := (joinDot_splitDot s).symm
      rw [heq] at this
      simpa [joinDot] using this

/-! Computation of `next_version` on well-shaped inputs. -/

theorem next_version_parts (d1 d2 d3 : List Char)
    (h1 : VersionParts d1) (h2 : VersionParts d2) (h3 : VersionParts d3) :
    NewRelease.next_version (d1 ++ '.' :: (d2 ++ '.' :: d3)) (toL "major") =
        some (natToDigits (digitsVal d1 + 1) ++ '.' :: (toL "0" ++ '.' :: toL "0")) ∧
    NewRelease.next_version (d1 ++ '.' :: (d2 ++ '.' :: d3)) (toL "minor") =
        some (d1 ++ '.' :: (natToDigits (digitsVal d2 + 1) ++ '.' :: toL "0")) ∧
    NewRelease.next_version (d1 ++ '.' :: (d2 ++ '.' :: d3)) (toL "patch") =
        some (d1 ++ '.' :: (d2 ++ '.' :: natToDigits (digitsVal d3 + 1))) := by
  have hsplit := splitDot_parts h1 h2 h3
  refine ⟨?_, ?_, ?_⟩
  · simp only [NewRelease.next_version, hsplit]
    simp [intOfDigits_of_parts h1]
  · simp only [NewRelease.next_version, hsplit,
      if_neg (show ¬(toL "minor" = toL "major") from by decide)]
    simp [intOfDigits_of_parts h2]
  · simp only [NewRelease.next_version, hsplit,
      if_neg (show ¬(toL "patch" = toL "major") from by decide),
      if_neg (show ¬(toL "patch" = toL "minor") from by decide)]
    simp [intOfDigits_of_parts h3]

theorem versionParts_zero : VersionParts (toL "0") := by
  constructor
  · decide
  · decide

theorem bump_versions_cases {release : List Char}
    (h : release ∈ NewRelease.bump_versions) :
    release = toL "major" ∨ release = toL "minor" ∨ release = toL "patch" := by
  simpa [NewRelease.bump_versions] using h

/-- On any parseable version and recognized bump kind, `next_version`
produces a strict version string whose triple is given by the §4.1 table. -/
theorem parse_next_version {cur release : List Char} {x y z : Nat}
    (hr : release ∈ NewRelease.bump_versions) (h : parseVersion cur = some (x, y, z)) :
    ∃ v, NewRelease.next_version cur release = some v ∧ isStrictVersion v = true ∧
      parseVersion v = some (bumpTriple release x y z) := by
  obtain ⟨d1, d2, d3, hs, h1, h2, h3, hv1, hv2, hv3⟩ := parts_of_parseVersion h
  subst hs
  obtain ⟨hma, hmi, hpa⟩ := next_version_parts d1 d2 d3 h1 h2 h3
  have hn1 := (natToDigits_parts (digitsVal d1 + 1)).1
  have hn2 := (natToDigits_parts (digitsVal d2 + 1)).1
  have hn3 := (natToDigits_parts (digitsVal d3 + 1)).1
  have he1 := (natToDigits_parts (digitsVal d1 + 1)).2
  have he2 := (natToDigits_parts (digitsVal d2 + 1)).2
  have he3 := (natToDigits_parts (digitsVal d3 + 1)).2
  have h0 : digitsVal (toL "0") = 0 := by decide
  rcases bump_versions_cases hr with hm | hm | hm <;> subst hm
  · refine ⟨_, hma, isStrictVersion_of_parts hn1 versionParts_zero versionParts_zero, ?_⟩
    rw [parseVersion_of_parts hn1 versionParts_zero versionParts_zero, he1, hv1, h0]
    simp [bumpTriple]
  · refine ⟨_, hmi, isStrictVersion_of_parts h1 hn2 versionParts_zero, ?_⟩
    rw [parseVersion_of_parts h1 hn2 versionParts_zero, he2, hv1, hv2, h0]
    simp only [bumpTriple, if_neg (show ¬(toL "minor" = toL "major") from by decide),
      if_pos rfl]
    simp
  · refine ⟨_, hpa, isStrictVersion_of_parts h1 h2 hn3, ?_⟩
    rw [parseVersion_of_parts h1 h2 hn3, he3, hv1, hv2, hv3]
    simp only [bumpTriple, if_neg (show ¬(toL "patch" = toL "major") from by decide),
      if_neg (show ¬(toL "patch" = toL "minor") from by decide)]

theorem validate_ok_of_strict {v : List Char} (h : isStrictVersion v = true) :
    NewRelease.validate_release_number (some v) = Except.ok () := by
  simp [NewRelease.validate_release_number, pyFullMatch_of_strict h]

theorem strict_parseVersion {s : List Char} (h : isStrictVersion s = true) :
    ∃ x y z, parseVersion s = some (x, y, z) := by
  obtain ⟨d1, d2, d3, hs, h1, h2, h3⟩ := parts_of_isStrictVersion h
  subst hs
  exact ⟨_, _, _, parseVersion_of_parts h1 h2 h3⟩

theorem bumpTriple_major (x y z : Nat) : bumpTriple (toL "major") x y z = (x + 1, 0, 0) := by
  simp [bumpTriple]

theorem bumpTriple_minor (x y z : Nat) : bumpTriple (toL "minor") x y z = (x, y + 1, 0) := by
  simp only [bumpTriple, if_neg (show ¬(toL "minor" = toL "major") from by decide)]
  simp

theorem bumpTriple_patch (x y z : Nat) : bumpTriple (toL "patch") x y z = (x, y, z + 1) := by
  simp only [bumpTriple, if_neg (show ¬(toL "patch" = toL "major") from by decide),
    if_neg (show ¬(toL "patch" = toL "minor") from by decide)]

theorem bumpTriple_ne {release : List Char} (hr : release ∈ NewRelease.bump_versions)
    (x y z : Nat) : bumpTriple release x y z ≠ (x, y, z) := by
  rcases bump_versions_cases hr with hm | hm | hm <;> subst hm
  · simp only [bumpTriple, if_pos rfl]
    intro hcon
    have := congrArg Prod.fst hcon
    simp at this
  · simp only [bumpTriple, if_neg (show ¬(toL "minor" = toL "major") from by decide),
      if_pos rfl]
    intro hcon
    have := congrArg (fun t => t.snd.fst) hcon
    simp at this
  · simp only [bumpTriple, if_neg (show ¬(toL "patch" = toL "major") from by decide),
      if_neg (show ¬(toL "patch" = toL "minor") from by decide)]
    intro hcon
    have := congrArg (fun t => t.snd.snd) hcon
    simp at this

/-! Structure of successful regex extraction. -/

theorem matchVersionAt_parts {s m : List Char} (h : matchVersionAt s = some m) :
    ∃ d1 d2 d3, m = d1 ++ '.' :: (d2 ++ '.' :: d3) ∧
      VersionParts d1 ∧ VersionParts d2 ∧ VersionParts d3 := by
  simp only [matchVersionAt] at h
  split at h
  · cases h
  next hne1 =>
    split at h
    case h_2 => cases h
    case h_1 r2 heq1 =>
      split at h
      · cases h
      next hne2 =>
        split at h
        case h_2 => cases h
        case h_1 r4 heq2 =>
          split at h
          · cases h
          next hne3 =>
            injection h with h
            rw [Bool.not_eq_true, List.isEmpty_eq_false] at hne1 hne2 hne3
            exact ⟨s.takeWhile Char.isDigit, r2.takeWhile Char.isDigit,
              r4.takeWhile Char.isDigit, h.symm,
              ⟨hne1, fun c hc => List.mem_takeWhile_imp hc⟩,
              ⟨hne2, fun c hc => List.mem_takeWhile_imp hc⟩,
              ⟨hne3, fun c hc => List.mem_takeWhile_imp hc⟩⟩

theorem get_version_from_line_parts : ∀ {l m : List Char},
    NewRelease.get_version_from_line l = some m →
    ∃ d1 d2 d3, m = d1 ++ '.' :: (d2 ++ '.' :: d3) ∧
      VersionParts d1 ∧ VersionParts d2 ∧ VersionParts d3
  | [], _, h => by cases h
  | c :: rest, m, h => by
    rw [NewRelease.get_version_from_line] at h
    split at h
    next m' heq =>
      injection h with h
      rw [← h]
      exact matchVersionAt_parts heq
    next heq => exact get_version_from_line_parts h

/-! Claim theorems. -/

/-- C1: for every current version string parsing to the triple
`(ma, mi, pa)` and every bump kind, `next_version` returns a version whose
triple is exactly the one of the §4.1 table: `major` gives `(ma+1, 0, 0)`,
`minor` gives `(ma, mi+1, 0)`, `patch` gives `(ma, mi, pa+1)`; lower-order
components are reset to zero and higher-order components are unchanged. -/
theorem C1_next_version_table (cur : List Char) (ma mi pa : Nat)
    (h : parseVersion cur = some (ma, mi, pa)) :
    (∃ v, NewRelease.next_version cur (toL "major") = some v ∧
        parseVersion v = some (ma + 1, 0, 0)) ∧
    (∃ v, NewRelease.next_version cur (toL "minor") = some v ∧
        parseVersion v = some (ma, mi + 1, 0)) ∧
    (∃ v, NewRelease.next_version cur (toL "patch") = some v ∧
        parseVersion v = some (ma, mi, pa + 1)) := by
  refine ⟨?_, ?_, ?_⟩
  · obtain ⟨v, hnv, _, hp⟩ := parse_next_version
      (show toL "major" ∈ NewRelease.bump_versions from by decide) h
    exact ⟨v, hnv, by rw [hp, bumpTriple_major]⟩
  · obtain ⟨v, hnv, _, hp⟩ := parse_next_version
      (show toL "minor" ∈ NewRelease.bump_versions from by decide) h
    exact ⟨v, hnv, by rw [hp, bumpTriple_minor]⟩
  · obtain ⟨v, hnv, _, hp⟩ := parse_next_version
      (show toL "patch" ∈ NewRelease.bump_versions from by decide) h
    exact ⟨v, hnv, by rw [hp, bumpTriple_patch]⟩

theorem C1_witness :
    parseVersion (toL "1.2.3") = some (1, 2, 3) ∧
    ((∃ v, NewRelease.next_version (toL "1.2.3") (toL "major") = some v ∧
        parseVersion v = some (2, 0, 0)) ∧
     (∃ v, NewRelease.next_version (toL "1.2.3") (toL "minor") = some v ∧
        parseVersion v = some (1, 3, 0)) ∧
     (∃ v, NewRelease.next_version (toL "1.2.3") (toL "patch") = some v ∧
        parseVersion v = some (1, 2, 4))) :=
  ⟨by decide, C1_next_version_table (toL "1.2.3") 1 2 3 (by decide)⟩

/-- C9: bumping a strict version string with a recognized bump kind yields a
string that is again a strict version (so it passes
`validate_release_number`): the bump preserves the version-format
invariant. -/
theorem C9_next_version_preserves_format (cur release : List Char)
    (h : isStrictVersion cur = true) (hr : release ∈ NewRelease.bump_versions) :
    ∃ v, NewRelease.next_version cur release = some v ∧ isStrictVersion v = true ∧
      NewRelease.validate_release_number (some v) = Except.ok () := by
  obtain ⟨x, y, z, hp⟩ := strict_parseVersion h
  obtain ⟨v, hnv, hstrict, _⟩ := parse_next_version hr hp
  exact ⟨v, hnv, hstrict, validate_ok_of_strict hstrict⟩

theorem C9_witness :
    (isStrictVersion (toL "1.2.3") = true ∧
      toL "patch" ∈ NewRelease.bump_versions) ∧
    (∃ v, NewRelease.next_version (toL "1.2.3") (toL "patch") = some v ∧
      isStrictVersion v = true ∧
      NewRelease.validate_release_number (some v) = Except.ok ()) :=
  ⟨⟨by decide, by decide⟩,
    C9_next_version_preserves_format (toL "1.2.3") (toL "patch") (by decide) (by decide)⟩

/-- C7: on a strict version string and recognized bump kind, the bump
strictly advances the version: the result differs from the input, and
bumping again differs from the first result — the operation is never
idempotent. -/
theorem C7_bump_not_idempotent (cur release : List Char)
    (h : isStrictVersion cur = true) (hr : release ∈ NewRelease.bump_versions) :
    ∃ v1 v2, NewRelease.next_version cur release = some v1 ∧ ¬ (v1 = cur) ∧
      NewRelease.next_version v1 release = some v2 ∧ ¬ (v2 = v1) := by
  obtain ⟨x, y, z, hp⟩ := strict_parseVersion h
  obtain ⟨v1, hnv1, hs1, hp1⟩ := parse_next_version hr hp
  obtain ⟨x1, y1, z1, hq⟩ := strict_parseVersion hs1
  obtain ⟨v2, hnv2, hs2, hp2⟩ := parse_next_version hr hq
  refine ⟨v1, v2, hnv1, ?_, hnv2, ?_⟩
  · intro heq
    rw [heq, hp] at hp1
    exact bumpTriple_ne hr x y z (Option.some.inj hp1.symm)
  · intro heq
    rw [heq, hq] at hp2
    exact bumpTriple_ne hr x1 y1 z1 (Option.some.inj hp2.symm)

theorem C7_witness :
    (isStrictVersion (toL "1.2.3") = true ∧
      toL "minor" ∈ NewRelease.bump_versions) ∧
    (∃ v1 v2, NewRelease.next_version (toL "1.2.3") (toL "minor") = some v1 ∧
      ¬ (v1 = toL "1.2.3") ∧
      NewRelease.next_version v1 (toL "minor") = some v2 ∧ ¬ (v2 = v1)) :=
  ⟨⟨by decide, by decide⟩,
    C7_bump_not_idempotent (toL "1.2.3") (toL "minor") (by decide) (by decide)⟩

/-- C8: any non-`None` string produced by `get_version_from_line` fully
matches the anchored pattern `^[0-9]+\.[0-9]+\.[0-9]+$`, so
`validate_release_number` accepts it: the `NewReleaseError` branch of
`validate_release_number` is unreachable for extracted values. -/
theorem C8_extraction_always_validates (line s : List Char)
    (h : NewRelease.get_version_from_line line = some s) :
    pyFullMatch s = true ∧
      NewRelease.validate_release_number (some s) = Except.ok () := by
  obtain ⟨d1, d2, d3, hm, h1, h2, h3⟩ := get_version_from_line_parts h
  subst hm
  have hf := pyFullMatch_of_parts h1 h2 h3
  exact ⟨hf, by simp [NewRelease.validate_release_number, hf]⟩

theorem C8_witness :
    NewRelease.get_version_from_line (toL "    version='1.2.3',\n") =
        some (toL "1.2.3") ∧
    (pyFullMatch (toL "1.2.3") = true ∧
      NewRelease.validate_release_number (some (toL "1.2.3")) = Except.ok ()) :=
  ⟨by decide,
    C8_extraction_always_validates (toL "    version='1.2.3',\n") (toL "1.2.3")
      (by decide)⟩

/-! Behaviour of the modelled `str.replace` scan. -/

theorem pyReplaceAux_fuel (d : Char) (cs new : List Char) :
    ∀ fuel fuel' s, s.length ≤ fuel → s.length ≤ fuel' →
      NewRelease.pyReplaceAux d cs new fuel s = NewRelease.pyReplaceAux d cs new fuel' s := by
  intro fuel
  induction fuel with
  | zero =>
    intro fuel' s h h'
    have hs : s = [] := List.length_eq_zero.mp (by omega)
    subst hs
    cases fuel' <;> rfl
  | succ fuel ih =>
    intro fuel' s h h'
    cases s with
    | nil => cases fuel' <;> rfl
    | cons c rest =>
      cases fuel' with
      | zero => simp at h'
      | succ fuel' =>
        simp only [NewRelease.pyReplaceAux]
        by_cases hpre : (d :: cs).isPrefixOf (c :: rest) = true
        · rw [if_pos hpre, if_pos hpre,
            ih fuel' (rest.drop cs.length)
              (by simp only [List.length_drop] at *; simp at h; omega)
              (by simp only [List.length_drop] at *; simp at h'; omega)]
        · rw [if_neg hpre, if_neg hpre,
            ih fuel' rest (by simp at h; omega) (by simp at h'; omega)]

theorem pyReplace_nil (old new : List Char) : NewRelease.pyReplace old new [] = [] := by
  cases old <;> rfl

theorem pyReplace_append_left {d : Char} (hd : d.isDigit = true) (cs new : List Char) :
    ∀ (pre rest : List Char), (∀ c ∈ pre, c.isDigit = false) →
      NewRelease.pyReplace (d :: cs) new (pre ++ rest) =
        pre ++ NewRelease.pyReplace (d :: cs) new rest
  | [], rest, _ => by simp
  | c :: pre, rest, hpre => by
    have hc : c.isDigit = false := hpre c (by simp)
    have hdc : (d == c) = false := by
      rw [beq_eq_false_iff_ne]
      intro hh
      rw [hh, hc] at hd
      cases hd
    have hnopref : (d :: cs).isPrefixOf (c :: (pre ++ rest)) = false := by
      rw [List.isPrefixOf_cons₂, hdc, Bool.false_and]
    have ih := pyReplace_append_left hd cs new pre rest
      (fun c hc => hpre c (by simp [hc]))
    have hcond : ¬((d :: cs).isPrefixOf (c :: (pre ++ rest)) = true) := by
      simp [hnopref]
    show NewRelease.pyReplaceAux d cs new (c :: (pre ++ rest)).length (c :: (pre ++ rest)) =
      (c :: pre) ++ NewRelease.pyReplace (d :: cs) new rest
    simp only [List.length_cons, NewRelease.pyReplaceAux]
    rw [if_neg hcond]
    show c :: NewRelease.pyReplace (d :: cs) new (pre ++ rest) =
      (c :: pre) ++ NewRelease.pyReplace (d :: cs) new rest
    rw [ih]
    simp

theorem pyReplace_at (d : Char) (cs new tail : List Char) :
    NewRelease.pyReplace (d :: cs) new ((d :: cs) ++ tail) =
      new ++ NewRelease.pyReplace (d :: cs) new tail := by
  have hpre : (d :: cs).isPrefixOf ((d :: cs) ++ tail) = true :=
    List.isPrefixOf_iff_prefix.mpr (List.prefix_append _ _)
  show NewRelease.pyReplaceAux d cs new ((d :: cs) ++ tail).length ((d :: cs) ++ tail) =
    new ++ NewRelease.pyReplace (d :: cs) new tail
  rw [show (d :: cs) ++ tail = d :: (cs ++ tail) from rfl]
  simp only [List.length_cons, NewRelease.pyReplaceAux]
  rw [if_pos (by rw [show d :: (cs ++ tail) = (d :: cs) ++ tail from rfl]; exact hpre),
    List.drop_left, pyReplaceAux_fuel d cs new (cs ++ tail).length tail.length tail
      (by simp) (by simp)]
  rfl

theorem pyReplace_no_digit {d : Char} (hd : d.isDigit = true) (cs new : List Char)
    {l : List Char} (hl : ∀ c ∈ l, c.isDigit = false) :
    NewRelease.pyReplace (d :: cs) new l = l := by
  have := pyReplace_append_left hd cs new l [] hl
  simpa [pyReplace_nil] using this

/-! Behaviour of the modelled `str.strip`. -/

theorem pyStrip_decomp {l t : List Char} (h : pyStrip l = t) :
    ∃ w1 w2, l = w1 ++ t ++ w2 ∧ (∀ c ∈ w1, isPyWhitespace c = true) ∧
      (∀ c ∈ w2, isPyWhitespace c = true) := by
  have hsplit := (List.takeWhile_append_dropWhile isPyWhitespace l).symm
  have hrev := (List.takeWhile_append_dropWhile isPyWhitespace
    (l.dropWhile isPyWhitespace).reverse).symm
  have hm2 : l.dropWhile isPyWhitespace =
      ((l.dropWhile isPyWhitespace).reverse.dropWhile isPyWhitespace).reverse ++
      ((l.dropWhile isPyWhitespace).reverse.takeWhile isPyWhitespace).reverse := by
    have hc := congrArg List.reverse hrev
    rwa [List.reverse_reverse, List.reverse_append] at hc
  have ht : ((l.dropWhile isPyWhitespace).reverse.dropWhile isPyWhitespace).reverse = t := h
  refine ⟨l.takeWhile isPyWhitespace,
    ((l.dropWhile isPyWhitespace).reverse.takeWhile isPyWhitespace).reverse, ?_, ?_, ?_⟩
  · conv_lhs => rw [hsplit, hm2, ht]
    simp [List.append_assoc]
  · intro c hc
    exact List.mem_takeWhile_imp hc
  · intro c hc
    rw [List.mem_reverse] at hc
    exact List.mem_takeWhile_imp hc

theorem pyStrip_wrap {w1 w2 t : List Char} (c0 c1 : Char) (t0 t1 : List Char)
    (hw1 : ∀ c ∈ w1, isPyWhitespace c = true)
    (hw2 : ∀ c ∈ w2, isPyWhitespace c = true)
    (ht0 : t = c0 :: t0) (hc0 : isPyWhitespace c0 = false)
    (ht1 : t = t1 ++ [c1]) (hc1 : isPyWhitespace c1 = false) :
    pyStrip (w1 ++ t ++ w2) = t := by
  unfold pyStrip
  have h1 : (w1 ++ t ++ w2).dropWhile isPyWhitespace = t ++ w2 := by
    conv_lhs => rw [List.append_assoc, ht0, List.cons_append]
    rw [dropWhile_append_of w1 hw1 hc0, ← List.cons_append, ← ht0]
  rw [h1]
  have h2 : (t ++ w2).reverse.dropWhile isPyWhitespace = c1 :: t1.reverse := by
    conv_lhs => rw [List.reverse_append, ht1, List.reverse_append,
      List.reverse_cons, List.reverse_nil, List.nil_append, List.singleton_append]
    exact dropWhile_append_of w2.reverse (fun c hc => hw2 c (List.mem_reverse.mp hc)) hc1
  rw [h2, List.reverse_cons, List.reverse_reverse, ← ht1]

/-! Shape of the `version='<v>',` search string. -/

theorem search_string_cons (v : List Char) :
    NewRelease.search_string v = 'v' :: (toL "ersion='" ++ (v ++ toL "',")) := by
  rw [NewRelease.search_string,
    show toL "version='" = 'v' :: toL "ersion='" from by decide]
  simp

theorem search_string_concat (v : List Char) :
    NewRelease.search_string v = (toL "version='" ++ (v ++ ['\''])) ++ [','] := by
  rw [NewRelease.search_string, show toL "'," = ['\'', ','] from by decide]
  simp

theorem pyReplace_search_line {cur : List Char} (hcur : isStrictVersion cur = true)
    (nxt w1 w2 : List Char) (hw1 : ∀ c ∈ w1, isPyWhitespace c = true)
    (hw2 : ∀ c ∈ w2, isPyWhitespace c = true) :
    NewRelease.pyReplace cur nxt (w1 ++ NewRelease.search_string cur ++ w2) =
      w1 ++ NewRelease.search_string nxt ++ w2 := by
  obtain ⟨d1, d2, d3, hs, h1, h2, h3⟩ := parts_of_isStrictVersion hcur
  obtain ⟨e, es, hde⟩ : ∃ e es, d1 = e :: es := by
    cases d1 with
    | nil => exact absurd rfl h1.1
    | cons e es => exact ⟨e, es, rfl⟩
  have hd : e.isDigit = true := h1.2 e (by simp [hde])
  have hcur_cons : cur = e :: (es ++ '.' :: (d2 ++ '.' :: d3)) := by
    rw [hs, hde]; rfl
  have hpre : ∀ c ∈ w1 ++ toL "version='", c.isDigit = false := by
    intro c hc
    rcases List.mem_append.mp hc with hc | hc
    · exact ws_not_digit (hw1 c hc)
    · exact (show ∀ x ∈ toL "version='", x.isDigit = false from by decide) c hc
  have htail : ∀ c ∈ toL "'," ++ w2, c.isDigit = false := by
    intro c hc
    rcases List.mem_append.mp hc with hc | hc
    · exact (show ∀ x ∈ toL "',", x.isDigit = false from by decide) c hc
    · exact ws_not_digit (hw2 c hc)
  have hline : w1 ++ NewRelease.search_string cur ++ w2 =
      (w1 ++ toL "version='") ++ (cur ++ (toL "'," ++ w2)) := by
    rw [NewRelease.search_string]
    simp [List.append_assoc]
  rw [hline, hcur_cons]
  rw [pyReplace_append_left hd (es ++ '.' :: (d2 ++ '.' :: d3)) nxt
    (w1 ++ toL "version='")
    ((e :: (es ++ '.' :: (d2 ++ '.' :: d3))) ++ (toL "'," ++ w2)) hpre]
  rw [show (e :: (es ++ '.' :: (d2 ++ '.' :: d3))) ++ (toL "'," ++ w2) =
    (e :: (es ++ '.' :: (d2 ++ '.' :: d3))) ++ (toL "'," ++ w2) from rfl]
  rw [pyReplace_at e (es ++ '.' :: (d2 ++ '.' :: d3)) nxt (toL "'," ++ w2)]
  rw [pyReplace_no_digit hd (es ++ '.' :: (d2 ++ '.' :: d3)) nxt htail]
  rw [NewRelease.search_string]
  simp [List.append_assoc]

/-- C3: rewriting the manifest maps each line whose stripped content is
exactly `version='<current>',` to a line whose stripped content is
`version='<next>',` (the current-version substring is replaced), keeps every
other line byte-for-byte identical, and preserves the number and order of
lines. -/
theorem C3_update_setup_file_rewrites (st : PyState) (cur nxt : List Char)
    (hcur : isStrictVersion cur = true) (hnxt : isStrictVersion nxt = true) :
    ((NewRelease.update_setup_file cur nxt st).setupFile).length =
        st.setupFile.length ∧
    ∀ (i : Nat) (line : List Char), st.setupFile[i]? = some line →
      ∃ line2, (NewRelease.update_setup_file cur nxt st).setupFile[i]? = some line2 ∧
        (pyStrip line = NewRelease.search_string cur →
          pyStrip line2 = NewRelease.search_string nxt) ∧
        (¬ (pyStrip line = NewRelease.search_string cur) → line2 = line) := by
  constructor
  · simp [NewRelease.update_setup_file]
  · intro i line hi
    refine ⟨NewRelease.rewrite_line cur nxt line, ?_, ?_, ?_⟩
    · simp [NewRelease.update_setup_file, List.getElem?_map, hi]
    · intro hm
      rw [NewRelease.rewrite_line, if_pos hm]
      obtain ⟨w1, w2, hline, hw1, hw2⟩ := pyStrip_decomp hm
      rw [hline, pyReplace_search_line hcur nxt w1 w2 hw1 hw2]
      exact pyStrip_wrap 'v' ',' (toL "ersion='" ++ (nxt ++ toL "',"))
        (toL "version='" ++ (nxt ++ ['\''])) hw1 hw2 (search_string_cons nxt)
        (by decide) (search_string_concat nxt) (by decide)
    · intro hm
      rw [NewRelease.rewrite_line, if_neg hm]

theorem C3_witness :
    (isStrictVersion (toL "1.2.3") = true ∧ isStrictVersion (toL "1.3.0") = true) ∧
    (((NewRelease.update_setup_file (toL "1.2.3") (toL "1.3.0")
        { setupFile := [toL "name='x',\n", toL "    version='1.2.3',\n",
            toL "zip_safe=False\n"], events := [] }).setupFile).length =
      (({ setupFile := [toL "name='x',\n", toL "    version='1.2.3',\n",
            toL "zip_safe=False\n"], events := [] } : PyState)).setupFile.length ∧
    ∀ (i : Nat) (line : List Char),
      (({ setupFile := [toL "name='x',\n", toL "    version='1.2.3',\n",
            toL "zip_safe=False\n"], events := [] } : PyState)).setupFile[i]? =
          some line →
      ∃ line2, (NewRelease.update_setup_file (toL "1.2.3") (toL "1.3.0")
          { setupFile := [toL "name='x',\n", toL "    version='1.2.3',\n",
              toL "zip_safe=False\n"], events := [] }).setupFile[i]? = some line2 ∧
        (pyStrip line = NewRelease.search_string (toL "1.2.3") →
          pyStrip line2 = NewRelease.search_string (toL "1.3.0")) ∧
        (¬ (pyStrip line = NewRelease.search_string (toL "1.2.3")) →
          line2 = line)) :=
  ⟨⟨by decide, by decide⟩,
    C3_update_setup_file_rewrites
      { setupFile := [toL "name='x',\n", toL "    version='1.2.3',\n",
          toL "zip_safe=False\n"], events := [] }
      (toL "1.2.3") (toL "1.3.0") (by decide) (by decide)⟩

/-- C5: when no line of the manifest strips exactly to
`version='<current>',`, the rewrite is a silent no-op: the file is written
back identical to what was read and no error is raised. -/
theorem C5_update_setup_file_silent_noop (st : PyState) (cur nxt : List Char)
    (h : ∀ line ∈ st.setupFile, ¬ (pyStrip line = NewRelease.search_string cur)) :
    (NewRelease.update_setup_file cur nxt st).setupFile = st.setupFile := by
  show st.setupFile.map (NewRelease.rewrite_line cur nxt) = st.setupFile
  have hcongr : ∀ line ∈ st.setupFile,
      NewRelease.rewrite_line cur nxt line = id line := by
    intro line hl
    simp [NewRelease.rewrite_line, if_neg (h line hl)]
  rw [List.map_congr_left hcongr, List.map_id]

theorem C5_witness :
    (∀ line ∈ [toL "name='x',\n", toL "    version = '1.2.3',\n"],
      ¬ (pyStrip line = NewRelease.search_string (toL "1.2.3"))) ∧
    (NewRelease.update_setup_file (toL "1.2.3") (toL "1.3.0")
        { setupFile := [toL "name='x',\n", toL "    version = '1.2.3',\n"],
          events := [] }).setupFile =
      ({ setupFile := [toL "name='x',\n", toL "    version = '1.2.3',\n"],
          events := [] } : PyState).setupFile :=
  ⟨by decide,
    C5_update_setup_file_silent_noop
      { setupFile := [toL "name='x',\n", toL "    version = '1.2.3',\n"],
        events := [] }
      (toL "1.2.3") (toL "1.3.0") (by decide)⟩

/-- C2 (the claim as stated is refuted by the code — code bug): on a manifest
with no `version=` line, or whose first `version=` line holds no
three-integer dotted substring, `extract_current_version` fails with
`TypeError` raised by `re.Pattern.match(None)`, not with the module's own
`NewReleaseError` (`InvalidVersionError`) promised by the function's
docstring and the spec. -/
theorem C2_extraction_failure_raises_typeerror :
    NewRelease.extract_current_version [toL "name='x'\n"] =
        Except.error PyErr.typeError ∧
    NewRelease.extract_current_version [toL "version='1.2',\n"] =
        Except.error PyErr.typeError ∧
    (Except.error PyErr.typeError :
        Except PyErr (Option (List Char))) ≠ Except.error PyErr.newReleaseError :=
  ⟨by decide, by decide, by decide⟩

/-- C4: an unrecognized bump kind makes `update_version` fail with the
module's `NewReleaseError` while the state at the moment of the raise is
exactly the input state — no manifest write, no `git add`, no commit and no
tag has been performed; every recognized kind passes `validate_release`. -/
theorem C4_invalid_bump_kind (cur release : List Char) (st : PyState) :
    (¬ (release ∈ NewRelease.bump_versions) →
      NewRelease.update_version cur release st =
        Except.error (PyErr.newReleaseError, st)) ∧
    (release ∈ NewRelease.bump_versions →
      NewRelease.validate_release release = Except.ok ()) := by
  constructor
  · intro h
    simp only [NewRelease.update_version, NewRelease.validate_release, if_neg h]
  · intro h
    rw [NewRelease.validate_release, if_pos h]

theorem C4_witness :
    NewRelease.update_version (toL "1.2.3") (toL "revision")
        { setupFile := [toL "    version='1.2.3',\n"], events := [] } =
      Except.error (PyErr.newReleaseError,
        { setupFile := [toL "    version='1.2.3',\n"], events := [] }) ∧
    NewRelease.validate_release (toL "major") = Except.ok () :=
  ⟨(C4_invalid_bump_kind (toL "1.2.3") (toL "revision")
      { setupFile := [toL "    version='1.2.3',\n"], events := [] }).1 (by decide),
   (C4_invalid_bump_kind (toL "1.2.3") (toL "major")
      { setupFile := [toL "    version='1.2.3',\n"], events := [] }).2 (by decide)⟩

/-- C6: `update_git` appends exactly one commit event whose message is
`New release: v` followed by the new version, and then one tag event whose
name is `v` followed by the new version — commit before tag, both derived
from the same version — and touches nothing else. -/
theorem C6_update_git_commit_then_tag (v : List Char) (st : PyState) :
    (NewRelease.update_git v st).events =
      st.events ++ [GitEvent.commit (toL "New release: v" ++ v),
        GitEvent.tag ('v' :: v)] ∧
    (NewRelease.update_git v st).setupFile = st.setupFile :=
  ⟨rfl, rfl⟩

/-- C10: `get_version_from_line` returns the leftmost substring matching the
three-integer pattern rather than the whole quoted value: on the line
`version='1.2.3.4',` it returns `1.2.3`, which then passes
`validate_release_number` — the over-long version is silently truncated and
accepted. -/
theorem C10_leftmost_truncation :
    NewRelease.get_version_from_line (toL "    version='1.2.3.4',\n") =
        some (toL "1.2.3") ∧
    NewRelease.validate_release_number (some (toL "1.2.3")) = Except.ok () :=
  ⟨by decide, by decide⟩
